import Mathlib

set_option linter.unusedSectionVars false

/-!
# Verification of the `hypergraph_properties` repository

Shallow embedding of the Python sources (`hypergraph.py`, `partitions.py`,
`isomorphism.py`, `isomorphism_classes.py`) into Lean 4, together with
theorems settling the specification claims.

Modelling conventions:
* Python sets of vertices become `Finset α`; frozensets of vertices likewise.
* Python dicts (attribute mappings) become association lists `Dict κ ν`;
  an empty dict is `[]`.
* A raised `ValueError` becomes an `Except Err` error value; each raise site
  is mapped to the error-taxonomy class the specification assigns to it.
* Methods that mutate the receiver return the new receiver state; `quotient`
  (which only reads the receiver) returns the pair
  `(receiver state after the call, result)` to make the frame condition a
  provable statement.
-/

/-- Error taxonomy of the library (spec §7): every Python `ValueError` raise
site is mapped to its class. -/
inductive Err where
  | invalidEdge
  | invalidPartition
  | invalidArgument
  | attributeCountMismatch
deriving DecidableEq

instance {ε σ : Type} [DecidableEq ε] [DecidableEq σ] : DecidableEq (Except ε σ) := fun a b =>
  match a, b with
  | Except.ok x, Except.ok y =>
      if h : x = y then isTrue (by rw [h]) else isFalse (fun hc => h (Except.ok.inj hc))
  | Except.error x, Except.error y =>
      if h : x = y then isTrue (by rw [h]) else isFalse (fun hc => h (Except.error.inj hc))
  | Except.ok _, Except.error _ => isFalse (fun hc => Except.noConfusion hc)
  | Except.error _, Except.ok _ => isFalse (fun hc => Except.noConfusion hc)

/-- A Python attribute dict, as an association list (keys unique in practice). -/
abbrev Dict (κ ν : Type) := List (κ × ν)

/-- `d[k] = v` on a dict: overwrite the value at an existing key in place,
otherwise append the new key (Python dict assignment semantics). -/
def dictSet {κ ν : Type} [DecidableEq κ] (d : Dict κ ν) (k : κ) (v : ν) : Dict κ ν :=
  if d.any (fun p => p.1 = k) then
    d.map (fun p => if p.1 = k then (k, v) else p)
  else
    d ++ [(k, v)]

/-- `d.update(u)`: assign every key/value pair of `u` into `d` in order. -/
def dictUpdate {κ ν : Type} [DecidableEq κ] (d u : Dict κ ν) : Dict κ ν :=
  u.foldl (fun acc p => dictSet acc p.1 p.2) d

/-- The class `Hypergraph` of `hypergraph.py`: vertex set, ordered edge list,
per-edge attribute dicts, the mirror set `edge_set` used for duplicate
detection, and the per-vertex attribute mapping. -/
structure Hypergraph (α κ ν : Type) [DecidableEq α] where
  vertices : Finset α
  edges : List (Finset α)
  edge_attrs : List (Dict κ ν)
  edge_set : Finset (Finset α)
  vertex_attrs : List (α × Dict κ ν)

instance {α κ ν : Type} [DecidableEq α] [DecidableEq κ] [DecidableEq ν] :
    DecidableEq (Hypergraph α κ ν) := fun H₁ H₂ =>
  decidable_of_iff
    (H₁.vertices = H₂.vertices ∧ H₁.edges = H₂.edges ∧ H₁.edge_attrs = H₂.edge_attrs ∧
      H₁.edge_set = H₂.edge_set ∧ H₁.vertex_attrs = H₂.vertex_attrs)
    (by cases H₁; cases H₂; simp [Hypergraph.mk.injEq])

variable {α κ ν : Type} [DecidableEq α] [DecidableEq κ]

/-- The edge-deduplication loop of `Hypergraph.__init__`: walk the supplied
edges, raise `InvalidEdge` on an empty edge, skip duplicates, and build the
ordered edge list together with the `edge_set` mirror. -/
def initEdges (es : List (Finset α)) :
    Except Err (List (Finset α) × Finset (Finset α)) :=
  es.foldlM
    (fun (st : List (Finset α) × Finset (Finset α)) e =>
      if e = ∅ then Except.error Err.invalidEdge
      else if e ∈ st.2 then Except.ok st
      else Except.ok (st.1 ++ [e], insert e st.2))
    ([], ∅)

/-- `Hypergraph.__init__(vertices, edges, vertex_attrs, edge_attrs)`.
The attribute-count check compares the *deduplicated* edge list (the value of
`self.edges` at that point) with the supplied `edge_attrs`; afterwards the
vertex set is enlarged by the union of all edges. -/
def Hypergraph.init (vertices : Option (Finset α)) (edges : Option (List (Finset α)))
    (vertex_attrs : Option (List (α × Dict κ ν))) (edge_attrs : Option (List (Dict κ ν))) :
    Except Err (Hypergraph α κ ν) :=
  (match edges with
    | none => Except.ok (([] : List (Finset α)), (∅ : Finset (Finset α)))
    | some es => initEdges es) >>= fun st =>
  (match edge_attrs with
    | none => Except.ok (st.1.map fun _ => ([] : Dict κ ν))
    | some ea =>
        if ea.length ≠ st.1.length then Except.error Err.attributeCountMismatch
        else Except.ok ea) >>= fun eattrs =>
  Except.ok
    { vertices := st.1.foldl (fun vs e => vs ∪ e) (vertices.getD ∅)
      edges := st.1
      edge_attrs := eattrs
      edge_set := st.2
      vertex_attrs := vertex_attrs.getD [] }

/-- `Hypergraph.from_edges(edge_sets, vertex_attrs, edge_attrs)`: re-checks
each edge for emptiness, then delegates to the constructor. -/
def Hypergraph.from_edges (edge_sets : List (Finset α))
    (vertex_attrs : Option (List (α × Dict κ ν)) := none)
    (edge_attrs : Option (List (Dict κ ν)) := none) :
    Except Err (Hypergraph α κ ν) :=
  (edge_sets.foldlM
    (fun (acc : List (Finset α)) s =>
      if s = ∅ then Except.error Err.invalidEdge else Except.ok (acc ++ [s]))
    []) >>= fun edges =>
  Hypergraph.init none (some edges) vertex_attrs edge_attrs

/-- `self.vertex_attrs.setdefault(v, {}).update(attrs)`. -/
def vaUpdate (va : List (α × Dict κ ν)) (v : α) (attrs : Dict κ ν) :
    List (α × Dict κ ν) :=
  if va.any (fun p => p.1 = v) then
    va.map (fun p => if p.1 = v then (p.1, dictUpdate p.2 attrs) else p)
  else
    va ++ [(v, dictUpdate [] attrs)]

/-- `Hypergraph.add_vertex(v, **attrs)`: insert the vertex; merge the
attributes only when some were supplied. -/
def Hypergraph.add_vertex (H : Hypergraph α κ ν) (v : α) (attrs : Dict κ ν) :
    Hypergraph α κ ν :=
  { H with
    vertices := insert v H.vertices
    vertex_attrs := if attrs.isEmpty then H.vertex_attrs else vaUpdate H.vertex_attrs v attrs }

/-- `Hypergraph.add_edge(nodes, **attrs)`: raise on an empty edge, signal a
no-op (`none`) on a duplicate, otherwise append the edge (returning its index)
and enlarge the vertex set. -/
def Hypergraph.add_edge (H : Hypergraph α κ ν) (nodes : Finset α) (attrs : Dict κ ν) :
    Except Err (Option ℕ × Hypergraph α κ ν) :=
  if nodes = ∅ then Except.error Err.invalidEdge
  else if nodes ∈ H.edge_set then Except.ok (none, H)
  else Except.ok (some H.edges.length,
    { H with
      edge_set := insert nodes H.edge_set
      edges := H.edges ++ [nodes]
      edge_attrs := H.edge_attrs ++ [attrs]
      vertices := H.vertices ∪ nodes })

/-- `Hypergraph.num_vertices()`. -/
def Hypergraph.num_vertices (H : Hypergraph α κ ν) : ℕ := H.vertices.card

/-- `Hypergraph.num_edges()`. -/
def Hypergraph.num_edges (H : Hypergraph α κ ν) : ℕ := H.edges.length

/-- `Hypergraph.edge_sizes()`. -/
def Hypergraph.edge_sizes (H : Hypergraph α κ ν) : List ℕ := H.edges.map Finset.card

/-- `Hypergraph.degree(v)`. -/
def Hypergraph.degree (H : Hypergraph α κ ν) (v : α) : ℕ :=
  (H.edges.filter (fun e => v ∈ e)).length

/-- One public mutating call on a `Hypergraph`. -/
inductive Op (α κ ν : Type) where
  | addV (v : α) (attrs : Dict κ ν)
  | addE (nodes : Finset α) (attrs : Dict κ ν)

/-- Run one call; a raising `add_edge` leaves the receiver untouched (the
Python method raises before any mutation). -/
def applyOp (H : Hypergraph α κ ν) : Op α κ ν → Hypergraph α κ ν
  | Op.addV v attrs => H.add_vertex v attrs
  | Op.addE nodes attrs =>
      match H.add_edge nodes attrs with
      | Except.ok (_, H') => H'
      | Except.error _ => H

/-- Run a sequence of public mutating calls. -/
def applyOps (H : Hypergraph α κ ν) (ops : List (Op α κ ν)) : Hypergraph α κ ν :=
  ops.foldl applyOp H

/-- `normalize_partition` from `partitions.py`: freeze every block, raising on
an empty one. -/
def normalize_partition (partition : List (Finset α)) : Except Err (List (Finset α)) :=
  partition.foldlM
    (fun (acc : List (Finset α)) blk =>
      if blk = ∅ then Except.error Err.invalidPartition else Except.ok (acc ++ [blk]))
    []

/-- `validate_partition` from `partitions.py`: walk the blocks keeping a
running union, raising when a block meets the union so far, then raise unless
the union is exactly the vertex set. -/
def validate_partition (blocks : List (Finset α)) (vertices : Finset α) :
    Except Err Unit := do
  let union ← blocks.foldlM
    (fun (u : Finset α) blk =>
      if (u ∩ blk).Nonempty then Except.error Err.invalidPartition
      else Except.ok (u ∪ blk))
    ∅
  if union ≠ vertices then Except.error Err.invalidPartition else Except.ok ()

/-- `vertex_to_block_map` from `partitions.py`, as a lookup function: the dict
is written block by block, so a vertex maps to the *last* block containing it
(`none` models a `KeyError` on lookup of an uncovered vertex). -/
def vertex_to_block_map (blocks : List (Finset α)) (v : α) : Option (Finset α) :=
  blocks.reverse.find? (fun blk => v ∈ blk)

/-- `Hypergraph.quotient(partition)`: validate, build the vertex-to-block map,
construct the quotient over the blocks with *no* attributes, and push every
edge image through `add_edge` (which deduplicates). The receiver is only read,
so the returned pair carries it back unchanged. -/
def Hypergraph.quotient (H : Hypergraph α κ ν) (partition : List (Finset α)) :
    Except Err (Hypergraph α κ ν × Hypergraph (Finset α) κ ν) :=
  normalize_partition partition >>= fun blocks =>
  validate_partition blocks H.vertices >>= fun _ =>
  Hypergraph.init (some blocks.toFinset) (some []) none (some []) >>=
    fun (Hq0 : Hypergraph (Finset α) κ ν) =>
  (H.edges.foldlM
    (fun (acc : Hypergraph (Finset α) κ ν) e =>
      (if ∀ v ∈ e, (vertex_to_block_map blocks v).isSome then
          Except.ok (e.image (fun v => (vertex_to_block_map blocks v).getD ∅))
        else Except.error Err.invalidPartition) >>= fun q_edge =>
      acc.add_edge q_edge [] >>= fun r =>
      Except.ok r.2)
    Hq0) >>= fun Hq =>
  Except.ok (H, Hq)

/-- The attributes carried by a node of a bipartite incidence graph: the
`bipartite` class tag (0 for vertex-nodes, 1 for edge-nodes) and, on
edge-nodes only, the `size` attribute (`a.get("size")` is `none` when the
attribute is absent). -/
structure NodeAttrs where
  bipartite : ℕ
  size : Option ℕ
deriving DecidableEq

/-- `node_match_bipartite` from `isomorphism.py` — the node-compatibility
predicate handed to `GraphMatcher` by `is_isomorphic`: it compares the
`bipartite` class tags and nothing else. -/
def node_match_bipartite (a b : NodeAttrs) : Bool :=
  a.bipartite == b.bipartite

/-- `_node_match` from `isomorphism_classes.py` — the node-compatibility
predicate used by the enumerator's `_isomorphic_masks`: equal class tag, and
on edge-class nodes additionally equal `size`. -/
def node_match_sized (a b : NodeAttrs) : Bool :=
  if a.bipartite != b.bipartite then false
  else if a.bipartite == 1 then a.size == b.size
  else true

/-- `_popcount` from `isomorphism_classes.py` (`int.bit_count()`). -/
def popcount (x : ℕ) : ℕ :=
  if h : x = 0 then 0
  else x % 2 + popcount (x / 2)
decreasing_by exact Nat.div_lt_self (Nat.pos_of_ne_zero h) one_lt_two

/-- `_mask_to_frozenset(mask, n)`: bit `i` (0-based) carries vertex `i + 1`. -/
def maskToFinset (mask n : ℕ) : Finset ℕ :=
  ((List.range n).filterMap
    (fun i => if mask.testBit i then some (i + 1) else none)).toFinset

/-- `itertools.combinations(l, k)`: all `k`-element sublists of `l`, in the
order itertools produces them (lexicographic by position). -/
def combinations : List α → ℕ → List (List α)
  | _, 0 => [[]]
  | [], _ + 1 => []
  | x :: xs, k + 1 => ((combinations xs k).map (fun c => x :: c)) ++ combinations xs (k + 1)

/-- Bitmask of a combination of 0-based vertex indices
(`m |= 1 << idx` accumulation). -/
def maskOf (idxs : List ℕ) : ℕ :=
  idxs.foldl (fun m i => m ||| (1 <<< i)) 0

/-- The `all_edges` enumeration of `generate_nonisomorphic_hypergraphs`: all
subsets of `{0, …, n-1}` of size `1 … maxEdgeSize` as bitmasks, sizes in
increasing order, combinations in itertools order within each size. -/
def all_edges_for (n maxEdgeSize : ℕ) : List ℕ :=
  (List.range' 1 maxEdgeSize).flatMap
    (fun r => (combinations (List.range n) r).map maskOf)

/-- Injective encoding of a list of naturals, standing in for the string/hash
digests of `networkx.weisfeiler_lehman_graph_hash`: what matters for the
claims is that equal label data yields equal digests. -/
def encodeList : List ℕ → ℕ
  | [] => 0
  | x :: xs => Nat.pair x (encodeList xs) + 1

/-- Sorting a list of labels ascending (the `sorted(...)` aggregation step of
the WL hash). -/
def sortNat (l : List ℕ) : List ℕ :=
  List.insertionSort (fun a b => a ≤ b) l

/-- The iterated Weisfeiler-Lehman node labels of the bipartite incidence
graph `_incidence_graph_from_masks(masks, n)`, as computed by
`nx.weisfeiler_lehman_graph_hash(B, node_attr="bipartite")`:
initial labels are the `bipartite` class tags (`0` for the `n` vertex-nodes,
`1` for the `masks.length` edge-nodes); each iteration relabels a node by
(old label, sorted labels of its incidence-graph neighbours), digested —
the digest is modelled by the injective pairing `Nat.pair`/`encodeList`. -/
def wlLabels (masks : List ℕ) (n : ℕ) :
    ℕ → (Fin n → ℕ) × (Fin masks.length → ℕ)
  | 0 => (fun _ => 0, fun _ => 1)
  | t + 1 =>
      let vl := (wlLabels masks n t).1
      let el := (wlLabels masks n t).2
      (fun v => Nat.pair (vl v)
        (encodeList (sortNat
          (((List.finRange masks.length).filter
              (fun i => (masks.get i).testBit v.val)).map el))),
       fun i => Nat.pair (el i)
        (encodeList (sortNat
          (((List.finRange n).filter
              (fun v => (masks.get i).testBit v.val)).map vl))))

/-- After `t` WL iterations, the sorted multiset of all node labels (the
per-iteration `Counter` snapshot of the networkx implementation, in canonical
form). -/
def wlRound (masks : List ℕ) (n t : ℕ) : List ℕ :=
  sortNat (((List.finRange n).map (wlLabels masks n t).1) ++
    ((List.finRange masks.length).map (wlLabels masks n t).2))

/-- `_wl_hash_incidence_graph(_incidence_graph_from_masks(masks, n))`:
`nx.weisfeiler_lehman_graph_hash` with `node_attr="bipartite"` and the default
3 iterations — the final digest is determined by the three per-iteration
label-multiset snapshots, which we keep as data. -/
def wl_hash_masks (masks : List ℕ) (n : ℕ) : List (List ℕ) :=
  [wlRound masks n 1, wlRound masks n 2, wlRound masks n 3]

/-- `_isomorphic_masks(a, na, b, nb)`: `GraphMatcher.is_isomorphic()` on the
two incidence graphs with the `_node_match` predicate.  An isomorphism of the
incidence graphs respecting the class tags is exactly a pair of bijections
(`σ` on vertex-nodes, `τ` on edge-nodes) preserving the `size` attribute of
edge-nodes and the incidence relation `v ∈ eᵢ`. -/
def isomorphic_masks (a : List ℕ) (na : ℕ) (b : List ℕ) (nb : ℕ) : Prop :=
  ∃ (σ : Fin na ≃ Fin nb) (τ : Fin a.length ≃ Fin b.length),
    (∀ i : Fin a.length, popcount (a.get i) = popcount (b.get (τ i))) ∧
    ∀ (i : Fin a.length) (v : Fin na),
      (a.get i).testBit v.val = (b.get (τ i)).testBit (σ v).val

instance (a : List ℕ) (na : ℕ) (b : List ℕ) (nb : ℕ) :
    Decidable (isomorphic_masks a na b nb) := by
  unfold isomorphic_masks
  infer_instance

/-- A representative kept by the enumerator: the pair
(vertex-universe size `n`, tuple of edge bitmasks). -/
abbrev MaskRep := ℕ × List ℕ

/-- The enumerator's bucket map `reps_by_hash`, as an association list in key
insertion order (Python dict semantics). -/
abbrev Buckets := List (List (List ℕ) × List MaskRep)

/-- The per-candidate body of the enumeration loop: hash the candidate, fetch
its bucket (`setdefault`), discard the candidate if it is exactly isomorphic
to a same-`n` representative of the bucket, otherwise append it. -/
def processCandidate (n : ℕ) (st : Buckets) (edge_masks : List ℕ) : Buckets :=
  let h := wl_hash_masks edge_masks n
  match st.find? (fun p => p.1 = h) with
  | none => st ++ [(h, [(n, edge_masks)])]
  | some p =>
      if ∃ r ∈ p.2, r.1 = n ∧ isomorphic_masks edge_masks n r.2 r.1 then st
      else st.map (fun q => if q.1 = h then (q.1, q.2 ++ [(n, edge_masks)]) else q)

/-- The candidate hypergraphs examined at universe size `n`: nothing when
fewer than `k` hyperedges exist (the `continue`), otherwise every
`k`-combination of distinct hyperedges, filtered for full vertex coverage
when `require_no_isolated` is set. -/
def candidates_for (k alpha n : ℕ) (require_no_isolated : Bool) : List (List ℕ) :=
  let all_edges := all_edges_for n (min alpha n)
  if all_edges.length < k then []
  else (combinations all_edges k).filter
    (fun ms => !require_no_isolated || (ms.foldl (fun u m => u ||| m) 0 == (1 <<< n) - 1))

/-- The whole bucket-filling loop of `generate_nonisomorphic_hypergraphs` for
`n = 1 … maxVertices`, flattened into the representative list in the order the
final conversion walks it (buckets in key insertion order, representatives in
append order). -/
def generateRepsCore (k alpha maxVertices : ℕ) (require_no_isolated : Bool) :
    List MaskRep :=
  ((List.range' 1 maxVertices).foldl
    (fun st n => (candidates_for k alpha n require_no_isolated).foldl (processCandidate n) st)
    []).flatMap (fun p => p.2)

/-- `generate_nonisomorphic_hypergraphs` up to (but not including) the final
conversion of representatives into `Hypergraph` objects: the argument checks
(`InvalidArgument` on `k ≤ 0` or `alpha ≤ 0`, empty result on
`max_vertices ≤ 0`, default `max_vertices = k * alpha`) followed by the
enumeration. -/
def generateReps (k alpha : Int) (max_vertices : Option Int)
    (require_no_isolated : Bool) : Except Err (List MaskRep) :=
  if k ≤ 0 then Except.error Err.invalidArgument
  else if alpha ≤ 0 then Except.error Err.invalidArgument
  else if max_vertices.getD (k * alpha) ≤ 0 then Except.ok []
  else Except.ok (generateRepsCore k.toNat alpha.toNat
    (max_vertices.getD (k * alpha)).toNat require_no_isolated)

/-- `generate_nonisomorphic_hypergraphs(k, alpha, max_vertices,
require_no_isolated)`: the enumeration followed by the conversion of every
representative `(n, edge_masks)` into a `Hypergraph` via `from_edges`
(attribute payload type fixed to `ℕ`, which the enumerator never uses). -/
def generate_nonisomorphic_hypergraphs (k alpha : Int) (max_vertices : Option Int)
    (require_no_isolated : Bool) : Except Err (List (Hypergraph ℕ ℕ ℕ)) :=
  generateReps k alpha max_vertices require_no_isolated >>= fun reps =>
  reps.mapM (fun r => Hypergraph.from_edges (r.2.map (fun m => maskToFinset m r.1)))

/-! ## Claim theorems -/

/-- C2 (counterexample): the node-compatibility predicate used by
`is_isomorphic` accepts a pair of edge-class nodes (`bipartite = 1`) with
*different* cardinality attributes — contradicting the claim that the
predicate rejects every pair of edge-class nodes of different sizes. -/
theorem node_match_bipartite_accepts_different_sizes :
    node_match_bipartite ⟨1, some 1⟩ ⟨1, some 2⟩ = true ∧
    (⟨1, some 1⟩ : NodeAttrs).bipartite = 1 ∧ (⟨1, some 2⟩ : NodeAttrs).bipartite = 1 ∧
    (⟨1, some 1⟩ : NodeAttrs).size ≠ (⟨1, some 2⟩ : NodeAttrs).size := by
  refine ⟨rfl, rfl, rfl, ?_⟩
  decide

/-- C2 (amended): the predicate used by `is_isomorphic`
(`node_match_bipartite`) accepts exactly when the class tags agree — it never
examines the size attribute; the size-checking predicate (`_node_match`) is
the one used by the enumerator's `_isomorphic_masks`, and that one accepts
exactly when the class tags agree and, on edge-class nodes, the sizes agree. -/
theorem node_match_predicates_spec (a b : NodeAttrs) :
    (node_match_bipartite a b = true ↔ a.bipartite = b.bipartite) ∧
    (node_match_sized a b = true ↔
      a.bipartite = b.bipartite ∧ (a.bipartite = 1 → a.size = b.size)) := by
  unfold node_match_bipartite node_match_sized
  constructor
  · simp
  · by_cases h : a.bipartite = b.bipartite
    · by_cases h1 : a.bipartite = 1 <;> simp [h, h1, bne] <;> tauto
    · simp [h, bne]

/-- C4: `generate(k = 2, alpha = 1, max_vertices = 2,
require_no_isolated = True)` returns exactly one `Hypergraph`: the one with
the two singleton edges `{1}` and `{2}` and vertex set `{1, 2}`. -/
theorem generate_two_singletons :
    generate_nonisomorphic_hypergraphs 2 1 (some 2) true =
      Except.ok [⟨{1, 2}, [{1}, {2}], [[], []], {{1}, {2}}, []⟩] := by
  decide

/-- C6: the enumeration rejects `k ≤ 0` and `alpha ≤ 0` with
`InvalidArgument`, while an explicitly supplied `max_vertices ≤ 0` (with valid
`k`, `alpha`) yields an empty result rather than an error. -/
theorem generate_argument_policy (k alpha : Int) (mv : Option Int)
    (require_no_isolated : Bool) :
    ((k ≤ 0 ∨ alpha ≤ 0) →
      generate_nonisomorphic_hypergraphs k alpha mv require_no_isolated =
        Except.error Err.invalidArgument) ∧
    (1 ≤ k → 1 ≤ alpha → ∀ m : Int, m ≤ 0 →
      generate_nonisomorphic_hypergraphs k alpha (some m) require_no_isolated =
        Except.ok []) := by
  have hbind : ∀ mv',
      generate_nonisomorphic_hypergraphs k alpha mv' require_no_isolated =
        Except.bind (generateReps k alpha mv' require_no_isolated)
          (fun reps => reps.mapM
            (fun r => Hypergraph.from_edges (r.2.map (fun m => maskToFinset m r.1)))) :=
    fun _ => rfl
  constructor
  · intro h
    have hrep : generateReps k alpha mv require_no_isolated =
        Except.error Err.invalidArgument := by
      unfold generateReps
      rcases h with h | h
      · rw [if_pos h]
      · rcases le_or_lt k 0 with hk | hk
        · rw [if_pos hk]
        · rw [if_neg (not_le.mpr hk), if_pos h]
    rw [hbind, hrep]
    rfl
  · intro hk ha m hm
    have hrep : generateReps k alpha (some m) require_no_isolated = Except.ok [] := by
      unfold generateReps
      rw [if_neg (not_le.mpr hk), if_neg (not_le.mpr ha)]
      simp only [Option.getD_some]
      rw [if_pos hm]
    rw [hbind, hrep]
    rfl

/-- Witness for C6 at the spec's concrete examples. -/
theorem generate_argument_policy_witness :
    generate_nonisomorphic_hypergraphs 0 3 none true = Except.error Err.invalidArgument ∧
    generate_nonisomorphic_hypergraphs 2 0 none true = Except.error Err.invalidArgument ∧
    generate_nonisomorphic_hypergraphs 2 2 (some 0) true = Except.ok [] :=
  ⟨(generate_argument_policy 0 3 none true).1 (Or.inl (by decide)),
   (generate_argument_policy 2 0 none true).1 (Or.inr (by decide)),
   (generate_argument_policy 2 2 (some 0) true).2 (by decide) (by decide) 0 (by decide)⟩

/-- C9: adding an already-present (non-empty) edge is a pure no-op: the call
returns the no-op signal `none` and the receiver is returned entirely
unchanged, the supplied attributes being discarded. -/
theorem add_edge_duplicate_noop {ν : Type} (H : Hypergraph α κ ν) (s : Finset α)
    (attrs : Dict κ ν) (hs : s ≠ ∅) (hsync : H.edge_set = H.edges.toFinset)
    (hmem : s ∈ H.edges) :
    H.add_edge s attrs = Except.ok (none, H) := by
  unfold Hypergraph.add_edge
  rw [if_neg hs, if_pos]
  rw [hsync, List.mem_toFinset]
  exact hmem

/-- Witness for C9 at a concrete hypergraph. -/
theorem add_edge_duplicate_noop_witness :
    ({1} : Finset ℕ) ≠ ∅ ∧
    Hypergraph.add_edge ⟨{1}, [{1}], [[]], {{1}}, []⟩ {1} [(5, 7)] =
      Except.ok (none, (⟨{1}, [{1}], [[]], {{1}}, []⟩ : Hypergraph ℕ ℕ ℕ)) :=
  ⟨by decide,
   add_edge_duplicate_noop ⟨{1}, [{1}], [[]], {{1}}, []⟩ {1} [(5, 7)]
     (by decide) (by decide) (by decide)⟩

/-! ### Helper lemmas about construction -/

/-- Any successful run of the constructor's edge loop yields a duplicate-free
list of non-empty edges with a synchronised `edge_set`, containing exactly the
distinct supplied edges. -/
theorem initEdges_ok_props (es : List (Finset α)) :
    ∀ (cur : List (Finset α)) (st : List (Finset α) × Finset (Finset α)),
      cur.Nodup → (∀ e ∈ cur, e ≠ ∅) →
      (es.foldlM
        (fun (st : List (Finset α) × Finset (Finset α)) e =>
          if e = ∅ then Except.error Err.invalidEdge
          else if e ∈ st.2 then Except.ok st
          else Except.ok (st.1 ++ [e], insert e st.2))
        (cur, cur.toFinset)) = Except.ok st →
      st.1.Nodup ∧ (∀ e ∈ st.1, e ≠ ∅) ∧ st.2 = st.1.toFinset ∧
        st.1.toFinset = cur.toFinset ∪ es.toFinset := by
  induction es with
  | nil =>
      intro cur st hnd hne h
      simp only [List.foldlM_nil] at h
      cases h
      exact ⟨hnd, hne, rfl, by simp⟩
  | cons e es ih =>
      intro cur st hnd hne h
      simp only [List.foldlM_cons] at h
      by_cases he : e = ∅
      · rw [if_pos he] at h
        cases h
      · rw [if_neg he] at h
        by_cases hmem : e ∈ cur.toFinset
        · rw [if_pos hmem] at h
          have := ih cur st hnd hne h
          refine ⟨this.1, this.2.1, this.2.2.1, ?_⟩
          rw [List.mem_toFinset] at hmem
          rw [this.2.2.2]
          ext x
          simp only [Finset.mem_union, List.mem_toFinset, List.mem_cons]
          constructor
          · rintro (hx | hx)
            · exact Or.inl hx
            · exact Or.inr (Or.inr hx)
          · rintro (hx | rfl | hx)
            · exact Or.inl hx
            · exact Or.inl hmem
            · exact Or.inr hx
        · rw [if_neg hmem] at h
          have hnd' : (cur ++ [e]).Nodup := by
            rw [List.nodup_append]
            refine ⟨hnd, List.nodup_singleton e, ?_⟩
            intro a ha hae
            rw [List.mem_singleton] at hae
            subst hae
            exact hmem (List.mem_toFinset.mpr ha)
          have hne' : ∀ x ∈ cur ++ [e], x ≠ ∅ := by
            intro x hx
            rcases List.mem_append.mp hx with hx | hx
            · exact hne x hx
            · rw [List.mem_singleton] at hx
              subst hx
              exact he
          have hset : insert e cur.toFinset = (cur ++ [e]).toFinset := by
            simp [List.toFinset_append, Finset.insert_eq, Finset.union_comm]
          rw [hset] at h
          have := ih (cur ++ [e]) st hnd' hne' h
          refine ⟨this.1, this.2.1, this.2.2.1, ?_⟩
          rw [this.2.2.2]
          ext x
          simp only [Finset.mem_union, List.mem_toFinset, List.mem_append,
            List.mem_singleton, List.mem_cons]
          tauto

/-- Under no empty supplied edges, the constructor's edge loop succeeds. -/
theorem initEdges_ok_exists (es : List (Finset α)) :
    ∀ (cur : List (Finset α)), (∀ e ∈ es, e ≠ ∅) →
      ∃ st : List (Finset α) × Finset (Finset α),
        (es.foldlM
          (fun (st : List (Finset α) × Finset (Finset α)) e =>
            if e = ∅ then Except.error Err.invalidEdge
            else if e ∈ st.2 then Except.ok st
            else Except.ok (st.1 ++ [e], insert e st.2))
          (cur, cur.toFinset)) = Except.ok st := by
  induction es with
  | nil => exact fun cur _ => ⟨(cur, cur.toFinset), rfl⟩
  | cons e es ih =>
      intro cur hne
      have he : e ≠ ∅ := hne e (List.mem_cons_self e es)
      have hes : ∀ x ∈ es, x ≠ ∅ := fun x hx => hne x (List.mem_cons_of_mem e hx)
      simp only [List.foldlM_cons, if_neg he]
      by_cases hmem : e ∈ cur.toFinset
      · rw [if_pos hmem]
        obtain ⟨st, hst⟩ := ih cur hes
        exact ⟨st, hst⟩
      · rw [if_neg hmem]
        have hset : insert e cur.toFinset = (cur ++ [e]).toFinset := by
          simp [List.toFinset_append, Finset.insert_eq, Finset.union_comm]
        obtain ⟨st, hst⟩ := ih (cur ++ [e]) hes
        refine ⟨st, ?_⟩
        rw [hset]
        exact hst

/-- Bind reduction on a known `Except.ok`, for rewriting the monadic code. -/
theorem ebind_ok {ε σ σ2 : Type} (a : σ) (f : σ → Except ε σ2) :
    (Except.ok a >>= f) = f a := rfl

/-- Bind reduction on a known `Except.error`. -/
theorem ebind_error {ε σ σ2 : Type} (e : ε) (f : σ → Except ε σ2) :
    ((Except.error e : Except ε σ) >>= f) = Except.error e := rfl

/-- C7 (counterexample): with the duplicate edge list `[{1}, {1}]` and a
supplied attribute collection of the *same* length 2, construction still
fails with `AttributeCountMismatch` — the constructor compares against the
deduplicated edge list (length 1), not the supplied collection (length 2). -/
theorem init_attr_mismatch_on_duplicates :
    [({1} : Finset ℕ), {1}].length = ([[], []] : List (Dict ℕ ℕ)).length ∧
    Hypergraph.init (α := ℕ) (κ := ℕ) (ν := ℕ) none (some [{1}, {1}]) none (some [[], []]) =
      Except.error Err.attributeCountMismatch := by
  decide

/-- C7 (amended): when a per-edge attribute collection is supplied (and no
supplied edge is empty, which would raise `InvalidEdge` first), construction
fails with `AttributeCountMismatch` exactly when the supplied collection's
length disagrees with the number of *distinct* supplied edges (the
deduplicated edge list retained by the constructor); when the lengths agree,
construction succeeds. -/
theorem init_attribute_count (vs : Option (Finset α)) (es : List (Finset α))
    (va : Option (List (α × Dict κ ν))) (ea : List (Dict κ ν))
    (hne : ∀ e ∈ es, e ≠ ∅) :
    (Hypergraph.init vs (some es) va (some ea) = Except.error Err.attributeCountMismatch ↔
      ea.length ≠ es.toFinset.card) ∧
    (ea.length = es.toFinset.card →
      ∃ H : Hypergraph α κ ν, Hypergraph.init vs (some es) va (some ea) = Except.ok H) := by
  obtain ⟨st, hst⟩ := initEdges_ok_exists es [] hne
  have hprops := initEdges_ok_props es [] st List.nodup_nil (by simp) hst
  have hst2 : initEdges es = Except.ok st := hst
  have hlen : st.1.length = es.toFinset.card := by
    have h1 : st.1.toFinset = es.toFinset := by
      rw [hprops.2.2.2]
      simp
    rw [← h1, List.toFinset_card_of_nodup hprops.1]
  have hred : Hypergraph.init vs (some es) va (some ea) =
      (if ea.length ≠ st.1.length then Except.error Err.attributeCountMismatch
       else Except.ok (⟨st.1.foldl (fun w e => w ∪ e) (vs.getD ∅), st.1, ea, st.2,
          va.getD []⟩ : Hypergraph α κ ν)) := by
    show (initEdges es >>= _) = _
    simp only [hst2, ebind_ok]
    by_cases hq : ea.length ≠ st.1.length
    · rw [if_pos hq, if_pos hq, ebind_error]
    · rw [if_neg hq, if_neg hq]
      rfl
  rw [hred, hlen]
  constructor
  · by_cases hq : ea.length ≠ es.toFinset.card
    · rw [if_pos hq]
      exact ⟨fun _ => hq, fun _ => rfl⟩
    · rw [if_neg hq]
      exact ⟨fun h => Except.noConfusion h, fun h => absurd h hq⟩
  · intro h
    rw [if_neg (fun hc => hc h)]
    exact ⟨_, rfl⟩

/-- Witness for C7 (amended) at a concrete duplicate-free input. -/
theorem init_attribute_count_witness :
    (∀ e ∈ [({1} : Finset ℕ), {2}], e ≠ ∅) ∧
    ∃ H : Hypergraph ℕ ℕ ℕ,
      Hypergraph.init none (some [{1}, {2}]) none (some [[], []]) = Except.ok H :=
  ⟨by decide,
   (init_attribute_count none [{1}, {2}] none [[], []] (by decide)).2 (by decide)⟩

/-- The accumulator is contained in a left fold of unions. -/
theorem subset_foldl_union (l : List (Finset α)) (s : Finset α) :
    s ⊆ l.foldl (fun a b => a ∪ b) s := by
  induction l generalizing s with
  | nil => exact fun x hx => hx
  | cons e l ih =>
      intro x hx
      simp only [List.foldl_cons]
      exact ih (s ∪ e) (Finset.mem_union_left e hx)

/-- Every member of the list is contained in the fold of unions. -/
theorem mem_subset_foldl_union (l : List (Finset α)) (e : Finset α) (he : e ∈ l) :
    ∀ s : Finset α, e ⊆ l.foldl (fun a b => a ∪ b) s := by
  induction l with
  | nil => cases he
  | cons x l ih =>
      intro s
      simp only [List.foldl_cons]
      rcases List.mem_cons.mp he with rfl | he2
      · exact fun y hy => subset_foldl_union l (s ∪ e) (Finset.mem_union_right s hy)
      · exact ih he2 (s ∪ x)

/-- The data invariants of a `Hypergraph` (claim C8's (a), (b), (c)) together
with the `edge_set` mirror synchronisation that carries them through
`add_edge`. -/
def HGGood (H : Hypergraph α κ ν) : Prop :=
  (∀ e ∈ H.edges, e ≠ ∅) ∧ H.edges.Nodup ∧
    (∀ e ∈ H.edges, ∀ v ∈ e, v ∈ H.vertices) ∧ H.edge_set = H.edges.toFinset

/-- Unfolding of the constructor's monadic body. -/
theorem init_reduce (vs : Option (Finset α)) (es : Option (List (Finset α)))
    (va : Option (List (α × Dict κ ν))) (ea : Option (List (Dict κ ν))) :
    Hypergraph.init vs es va ea =
      ((match es with
        | none => Except.ok (([] : List (Finset α)), (∅ : Finset (Finset α)))
        | some es => initEdges es) >>= fun st =>
       ((match ea with
        | none => Except.ok (st.1.map fun _ => ([] : Dict κ ν))
        | some ea =>
            if ea.length ≠ st.1.length then Except.error Err.attributeCountMismatch
            else Except.ok ea) >>= fun eattrs =>
       Except.ok ⟨st.1.foldl (fun w e => w ∪ e) (vs.getD ∅), st.1, eattrs, st.2,
         va.getD []⟩)) := rfl

/-- Successful construction establishes the invariants. -/
theorem hggood_init (vs : Option (Finset α)) (es : Option (List (Finset α)))
    (va : Option (List (α × Dict κ ν))) (ea : Option (List (Dict κ ν)))
    (H : Hypergraph α κ ν) (h : Hypergraph.init vs es va ea = Except.ok H) :
    HGGood H := by
  rw [init_reduce] at h
  cases hes : (match es with
      | none => Except.ok (([] : List (Finset α)), (∅ : Finset (Finset α)))
      | some es => initEdges es) with
  | error e => rw [hes, ebind_error] at h; cases h
  | ok st =>
      rw [hes, ebind_ok] at h
      have hstp : st.1.Nodup ∧ (∀ e ∈ st.1, e ≠ ∅) ∧ st.2 = st.1.toFinset := by
        cases es with
        | none =>
            have h2 : (Except.ok (([] : List (Finset α)), (∅ : Finset (Finset α))) :
                Except Err _) = Except.ok st := hes
            have h3 := Except.ok.inj h2
            rw [← h3]
            exact ⟨List.nodup_nil, by simp, by simp⟩
        | some es2 =>
            have h2 : initEdges es2 = Except.ok st := hes
            have := initEdges_ok_props es2 [] st List.nodup_nil (by simp) h2
            exact ⟨this.1, this.2.1, this.2.2.1⟩
      cases hea : (match ea with
          | none => Except.ok (st.1.map fun _ => ([] : Dict κ ν))
          | some ea =>
              if ea.length ≠ st.1.length then Except.error Err.attributeCountMismatch
              else Except.ok ea) with
      | error e2 => rw [hea, ebind_error] at h; cases h
      | ok eattrs =>
          rw [hea, ebind_ok] at h
          have hH := (Except.ok.inj h).symm
          rw [hH]
          refine ⟨hstp.2.1, hstp.1, ?_, hstp.2.2⟩
          intro e he v hv
          exact mem_subset_foldl_union st.1 e he _ hv

/-- `add_vertex` preserves the invariants. -/
theorem hggood_add_vertex (H : Hypergraph α κ ν) (v : α) (attrs : Dict κ ν)
    (h : HGGood H) : HGGood (H.add_vertex v attrs) := by
  obtain ⟨h1, h2, h3, h4⟩ := h
  exact ⟨h1, h2, fun e he w hw => Finset.mem_insert_of_mem (h3 e he w hw), h4⟩

/-- A successful `add_edge` preserves the invariants. -/
theorem hggood_add_edge (H : Hypergraph α κ ν) (nodes : Finset α) (attrs : Dict κ ν)
    (r : Option ℕ) (H' : Hypergraph α κ ν) (h : HGGood H)
    (hcall : H.add_edge nodes attrs = Except.ok (r, H')) : HGGood H' := by
  obtain ⟨h1, h2, h3, h4⟩ := h
  unfold Hypergraph.add_edge at hcall
  by_cases h0 : nodes = ∅
  · rw [if_pos h0] at hcall
    cases hcall
  · rw [if_neg h0] at hcall
    by_cases hm : nodes ∈ H.edge_set
    · rw [if_pos hm] at hcall
      have h5 := Except.ok.inj hcall
      have hH : H = H' := congrArg Prod.snd h5
      rw [← hH]
      exact ⟨h1, h2, h3, h4⟩
    · rw [if_neg hm] at hcall
      have h5 := Except.ok.inj hcall
      have hH : ({ H with
          edge_set := insert nodes H.edge_set
          edges := H.edges ++ [nodes]
          edge_attrs := H.edge_attrs ++ [attrs]
          vertices := H.vertices ∪ nodes } : Hypergraph α κ ν) = H' :=
        congrArg Prod.snd h5
      rw [← hH]
      have hnotmem : nodes ∉ H.edges := fun hc =>
        hm (h4 ▸ List.mem_toFinset.mpr hc)
      refine ⟨?_, ?_, ?_, ?_⟩
      · intro e he
        rcases List.mem_append.mp he with he | he
        · exact h1 e he
        · rw [List.mem_singleton] at he
          rw [he]
          exact h0
      · rw [List.nodup_append]
        refine ⟨h2, List.nodup_singleton nodes, ?_⟩
        intro a ha hae
        rw [List.mem_singleton] at hae
        rw [hae] at ha
        exact hnotmem ha
      · intro e he v hv
        rcases List.mem_append.mp he with he | he
        · exact Finset.mem_union_left nodes (h3 e he v hv)
        · rw [List.mem_singleton] at he
          rw [he] at hv
          exact Finset.mem_union_right _ hv
      · rw [h4]
        ext x
        simp only [Finset.mem_insert, List.mem_toFinset, List.mem_append,
          List.mem_singleton]
        tauto

/-- Any public mutating call preserves the invariants. -/
theorem hggood_applyOp (H : Hypergraph α κ ν) (op : Op α κ ν) (h : HGGood H) :
    HGGood (applyOp H op) := by
  cases op with
  | addV v attrs => exact hggood_add_vertex H v attrs h
  | addE nodes attrs =>
      simp only [applyOp]
      cases hcall : H.add_edge nodes attrs with
      | ok p =>
          cases p with
          | mk r H2 => exact hggood_add_edge H nodes attrs r H2 h hcall
      | error e => exact h

/-- Any sequence of public mutating calls preserves the invariants. -/
theorem hggood_applyOps (H : Hypergraph α κ ν) (ops : List (Op α κ ν))
    (h : HGGood H) : HGGood (applyOps H ops) := by
  induction ops generalizing H with
  | nil => exact h
  | cons op ops ih => exact ih (applyOp H op) (hggood_applyOp H op h)

/-- C8: every `Hypergraph` obtained by construction followed by any sequence
of `add_vertex`/`add_edge` calls satisfies (a) no edge is empty, (b) the edges
are pairwise distinct as sets, (c) the vertex set contains every vertex of
every edge. -/
theorem hypergraph_invariants_hold (vs : Option (Finset α))
    (es : Option (List (Finset α))) (va : Option (List (α × Dict κ ν)))
    (ea : Option (List (Dict κ ν))) (H₀ : Hypergraph α κ ν) (ops : List (Op α κ ν))
    (h : Hypergraph.init vs es va ea = Except.ok H₀) :
    (∀ e ∈ (applyOps H₀ ops).edges, e ≠ ∅) ∧
    (applyOps H₀ ops).edges.Nodup ∧
    (∀ e ∈ (applyOps H₀ ops).edges, ∀ v ∈ e, v ∈ (applyOps H₀ ops).vertices) := by
  have hg := hggood_applyOps H₀ ops (hggood_init vs es va ea H₀ h)
  exact ⟨hg.1, hg.2.1, hg.2.2.1⟩

/-- Witness for C8: construct from a concrete edge collection, then add a
vertex, a fresh edge, a duplicate edge, and attempt an invalid empty edge. -/
theorem hypergraph_invariants_hold_witness :
    Hypergraph.init (α := ℕ) (κ := ℕ) (ν := ℕ) none (some [{1, 2}]) none none =
      Except.ok ⟨{1, 2}, [{1, 2}], [[]], {{1, 2}}, []⟩ ∧
    (let Hf := applyOps (⟨{1, 2}, [{1, 2}], [[]], {{1, 2}}, []⟩ : Hypergraph ℕ ℕ ℕ)
        [Op.addV 7 [], Op.addE {2, 3} [], Op.addE ∅ [], Op.addE {1, 2} [(0, 0)]]
     (∀ e ∈ Hf.edges, e ≠ ∅) ∧ Hf.edges.Nodup ∧ ∀ e ∈ Hf.edges, ∀ v ∈ e, v ∈ Hf.vertices) :=
  ⟨by decide,
   hypergraph_invariants_hold none (some [{1, 2}]) none none
     ⟨{1, 2}, [{1, 2}], [[]], {{1, 2}}, []⟩
     [Op.addV 7 [], Op.addE {2, 3} [], Op.addE ∅ [], Op.addE {1, 2} [(0, 0)]]
     (by decide)⟩

/-! ### Helper lemmas about partitions and quotient -/

/-- `normalize_partition` succeeds, returning the blocks unchanged, when no
block is empty. -/
theorem normalize_partition_ok (τ : List (Finset α)) (hne : ∀ b ∈ τ, b ≠ ∅) :
    normalize_partition τ = Except.ok τ := by
  have haux : ∀ (l acc : List (Finset α)), (∀ b ∈ l, b ≠ ∅) →
      (l.foldlM (fun (acc : List (Finset α)) blk =>
        if blk = ∅ then Except.error Err.invalidPartition else Except.ok (acc ++ [blk])) acc)
        = Except.ok (acc ++ l) := by
    intro l
    induction l with
    | nil =>
        intro acc _
        simp only [List.foldlM_nil, List.append_nil]
        rfl
    | cons b bs ih =>
        intro acc hne2
        simp only [List.foldlM_cons]
        rw [if_neg (hne2 b (List.mem_cons_self b bs))]
        simp only [ebind_ok]
        rw [ih (acc ++ [b]) (fun x hx => hne2 x (List.mem_cons_of_mem b hx))]
        simp
  have := haux τ [] hne
  simpa [normalize_partition] using this

/-- Membership in a left fold of unions. -/
theorem mem_foldl_union (l : List (Finset α)) (u : Finset α) (v : α) :
    v ∈ l.foldl (fun a b => a ∪ b) u ↔ v ∈ u ∨ ∃ b ∈ l, v ∈ b := by
  induction l generalizing u with
  | nil => simp
  | cons x l ih =>
      simp only [List.foldl_cons, ih (u ∪ x), Finset.mem_union, List.mem_cons]
      constructor
      · rintro ((hv | hv) | ⟨b, hb, hv⟩)
        · exact Or.inl hv
        · exact Or.inr ⟨x, Or.inl rfl, hv⟩
        · exact Or.inr ⟨b, Or.inr hb, hv⟩
      · rintro (hv | ⟨b, (rfl | hb), hv⟩)
        · exact Or.inl (Or.inl hv)
        · exact Or.inl (Or.inr hv)
        · exact Or.inr ⟨b, hb, hv⟩

/-- `validate_partition` succeeds on a disjoint exact cover. -/
theorem validate_partition_ok (τ : List (Finset α)) (vertices : Finset α)
    (hdisj : τ.Pairwise (fun s t => Disjoint s t))
    (hcov : ∀ v, v ∈ vertices ↔ ∃ b ∈ τ, v ∈ b) :
    validate_partition τ vertices = Except.ok () := by
  have haux : ∀ (l : List (Finset α)) (u : Finset α),
      (∀ b ∈ l, Disjoint u b) → l.Pairwise (fun s t => Disjoint s t) →
      (l.foldlM (fun (u : Finset α) blk =>
        if (u ∩ blk).Nonempty then Except.error Err.invalidPartition
        else Except.ok (u ∪ blk)) u)
        = Except.ok (l.foldl (fun a b => a ∪ b) u) := by
    intro l
    induction l with
    | nil =>
        intro u _ _
        simp only [List.foldlM_nil, List.foldl_nil]
        rfl
    | cons b bs ih =>
        intro u hu hp
        simp only [List.foldlM_cons]
        rw [if_neg (by
          rw [Finset.not_nonempty_iff_eq_empty, ← Finset.disjoint_iff_inter_eq_empty]
          exact hu b (List.mem_cons_self b bs))]
        simp only [ebind_ok]
        rw [ih (u ∪ b) ?_ (List.Pairwise.of_cons hp)]
        · simp
        · intro c hc
          rw [Finset.disjoint_union_left]
          exact ⟨hu c (List.mem_cons_of_mem b hc), (List.pairwise_cons.mp hp).1 c hc⟩
  show (τ.foldlM _ ∅ >>= _) = _
  rw [haux τ ∅ (fun b _ => Finset.disjoint_empty_left b) hdisj]
  simp only [ebind_ok]
  rw [if_neg]
  rw [not_ne_iff]
  ext v
  rw [mem_foldl_union]
  simp only [Finset.not_mem_empty, false_or]
  exact (hcov v).symm

/-- A successful block lookup returns a block of the partition containing the
vertex. -/
theorem vertex_to_block_map_mem (blocks : List (Finset α)) (v : α) (blk : Finset α)
    (h : vertex_to_block_map blocks v = some blk) : blk ∈ blocks ∧ v ∈ blk := by
  unfold vertex_to_block_map at h
  refine ⟨?_, ?_⟩
  · have := List.mem_of_find?_eq_some h
    exact (List.mem_reverse).mp this
  · have := List.find?_some h
    simpa using this

/-- The block lookup succeeds on every covered vertex. -/
theorem vertex_to_block_map_isSome (blocks : List (Finset α)) (v : α)
    (h : ∃ b ∈ blocks, v ∈ b) : (vertex_to_block_map blocks v).isSome := by
  unfold vertex_to_block_map
  rw [List.find?_isSome]
  obtain ⟨b, hb, hv⟩ := h
  exact ⟨b, List.mem_reverse.mpr hb, by simpa using hv⟩

/-- Pairwise-disjoint non-empty blocks are pairwise distinct. -/
theorem nodup_of_pairwise_disjoint (τ : List (Finset α)) (hne : ∀ b ∈ τ, b ≠ ∅)
    (hdisj : τ.Pairwise (fun s t => Disjoint s t)) : τ.Nodup := by
  refine hdisj.imp_of_mem ?_
  intro a b ha _ hab he
  rw [he] at hab
  rw [disjoint_self] at hab
  exact hne b (he ▸ ha) (by simpa using hab)

/-- On a hypergraph satisfying the invariants, `add_edge` of a non-empty edge
contained in the vertex set always succeeds, preserves the vertex set and the
vertex attributes, only ever appends the supplied attribute dict, and keeps
the invariants. -/
theorem add_edge_cases {β : Type} [DecidableEq β] (G : Hypergraph β κ ν) (q : Finset β)
    (attrs : Dict κ ν) (hq : q ≠ ∅) (hgood : HGGood G) (hsub : q ⊆ G.vertices) :
    ∃ r G2, G.add_edge q attrs = Except.ok (r, G2) ∧
      G2.vertices = G.vertices ∧ G2.vertex_attrs = G.vertex_attrs ∧
      (∀ d ∈ G2.edge_attrs, d ∈ G.edge_attrs ∨ d = attrs) ∧ HGGood G2 := by
  unfold Hypergraph.add_edge
  rw [if_neg hq]
  by_cases hm : q ∈ G.edge_set
  · rw [if_pos hm]
    exact ⟨none, G, rfl, rfl, rfl, fun d hd => Or.inl hd, hgood⟩
  · rw [if_neg hm]
    refine ⟨some G.edges.length, _, rfl, ?_, rfl, ?_, ?_⟩
    · exact Finset.union_eq_left.mpr hsub
    · intro d hd
      rcases List.mem_append.mp hd with hd | hd
      · exact Or.inl hd
      · exact Or.inr (List.mem_singleton.mp hd)
    · exact hggood_add_edge G q attrs (some G.edges.length) _ hgood
        (by rw [Hypergraph.add_edge, if_neg hq, if_neg hm])

/-- The edge-image loop of `quotient` succeeds on covered, invariant-abiding
edges and preserves the quotient skeleton: vertex set equal to the block set,
empty vertex attributes, and all edge-attribute dicts empty. -/
theorem quotient_fold (blocks : List (Finset α)) (es : List (Finset α))
    (hcov : ∀ e ∈ es, e ≠ ∅ ∧ ∀ v ∈ e, ∃ b ∈ blocks, v ∈ b) :
    ∀ acc : Hypergraph (Finset α) κ ν, HGGood acc → acc.vertices = blocks.toFinset →
      (∀ d ∈ acc.edge_attrs, d = ([] : Dict κ ν)) → acc.vertex_attrs = [] →
      ∃ R : Hypergraph (Finset α) κ ν,
        (es.foldlM
          (fun (acc : Hypergraph (Finset α) κ ν) e =>
            (if ∀ v ∈ e, (vertex_to_block_map blocks v).isSome then
                Except.ok (e.image (fun v => (vertex_to_block_map blocks v).getD ∅))
              else Except.error Err.invalidPartition) >>= fun q_edge =>
            acc.add_edge q_edge [] >>= fun r =>
            Except.ok r.2)
          acc) = Except.ok R ∧
        R.vertices = blocks.toFinset ∧ (∀ d ∈ R.edge_attrs, d = ([] : Dict κ ν)) ∧
        R.vertex_attrs = [] := by
  induction es with
  | nil =>
      intro acc _ h1 h2 h3
      exact ⟨acc, rfl, h1, h2, h3⟩
  | cons e es ih =>
      intro acc hgood h1 h2 h3
      obtain ⟨hene, hecov⟩ := hcov e (List.mem_cons_self e es)
      have hcov2 : ∀ x ∈ es, x ≠ ∅ ∧ ∀ v ∈ x, ∃ b ∈ blocks, v ∈ b :=
        fun x hx => hcov x (List.mem_cons_of_mem e hx)
      simp only [List.foldlM_cons]
      rw [if_pos (fun v hv => vertex_to_block_map_isSome blocks v (hecov v hv))]
      simp only [ebind_ok]
      set q := e.image (fun v => (vertex_to_block_map blocks v).getD ∅) with hqdef
      have hqne : q ≠ ∅ := by
        rw [← Finset.nonempty_iff_ne_empty]
        exact Finset.Nonempty.image (Finset.nonempty_iff_ne_empty.mpr hene) _
      have hqsub : q ⊆ acc.vertices := by
        rw [h1]
        intro b hb
        rw [hqdef] at hb
        obtain ⟨v, hv, hbv⟩ := Finset.mem_image.mp hb
        have hsome := vertex_to_block_map_isSome blocks v (hecov v hv)
        obtain ⟨blk, hblk⟩ := Option.isSome_iff_exists.mp hsome
        have := vertex_to_block_map_mem blocks v blk hblk
        rw [← hbv, hblk]
        exact List.mem_toFinset.mpr this.1
      obtain ⟨r, G2, hcall, hv2, hva2, hea2, hgood2⟩ :=
        add_edge_cases acc q [] hqne hgood hqsub
      rw [hcall]
      simp only [ebind_ok]
      refine ih hcov2 G2 hgood2 (by rw [hv2, h1]) ?_ (by rw [hva2, h3])
      intro d hd
      rcases hea2 d hd with hd2 | hd2
      · exact h2 d hd2
      · exact hd2

instance (H : Hypergraph α κ ν) : Decidable (HGGood H) := by
  unfold HGGood
  infer_instance

/-- Full characterisation of a successful `quotient` call: the receiver is
returned unchanged, and the result has the blocks as vertex set, no vertex
attributes, and only empty per-edge attribute dicts. -/
theorem quotient_spec (H : Hypergraph α κ ν) (τ : List (Finset α))
    (hne : ∀ b ∈ τ, b ≠ ∅) (hdisj : τ.Pairwise (fun s t => Disjoint s t))
    (hcov : τ.foldl (fun a b => a ∪ b) ∅ = H.vertices) (hgood : HGGood H) :
    ∃ Hq : Hypergraph (Finset α) κ ν,
      H.quotient τ = Except.ok (H, Hq) ∧ Hq.vertices = τ.toFinset ∧
      Hq.vertex_attrs = [] ∧ ∀ d ∈ Hq.edge_attrs, d = ([] : Dict κ ν) := by
  have hcovp : ∀ v, v ∈ H.vertices ↔ ∃ b ∈ τ, v ∈ b := by
    intro v
    rw [← hcov, mem_foldl_union]
    simp
  have hinit : Hypergraph.init (α := Finset α) (κ := κ) (ν := ν)
      (some τ.toFinset) (some []) none (some []) =
      Except.ok ⟨τ.toFinset, [], [], ∅, []⟩ := rfl
  have hcov2 : ∀ e ∈ H.edges, e ≠ ∅ ∧ ∀ v ∈ e, ∃ b ∈ τ, v ∈ b := by
    intro e he
    exact ⟨hgood.1 e he, fun v hv => (hcovp v).mp (hgood.2.2.1 e he v hv)⟩
  have hgood0 : HGGood (⟨τ.toFinset, [], [], ∅, []⟩ : Hypergraph (Finset α) κ ν) := by
    refine ⟨by simp, List.nodup_nil, by simp, by simp⟩
  obtain ⟨R, hfold, hR1, hR2, hR3⟩ :=
    quotient_fold τ H.edges hcov2 ⟨τ.toFinset, [], [], ∅, []⟩ hgood0 rfl (by simp) rfl
  refine ⟨R, ?_, hR1, hR3, hR2⟩
  unfold Hypergraph.quotient
  rw [normalize_partition_ok τ hne]
  simp only [ebind_ok]
  rw [validate_partition_ok τ H.vertices hdisj hcovp]
  simp only [ebind_ok]
  rw [hinit]
  simp only [ebind_ok]
  rw [hfold]
  rfl

/-- C5: for every invariant-abiding hypergraph and every exact-cover partition
into `m` disjoint non-empty blocks, `quotient` succeeds and the result has
exactly `m` vertices. -/
theorem quotient_vertex_count (H : Hypergraph α κ ν) (τ : List (Finset α))
    (hne : ∀ b ∈ τ, b ≠ ∅) (hdisj : τ.Pairwise (fun s t => Disjoint s t))
    (hcov : τ.foldl (fun a b => a ∪ b) ∅ = H.vertices) (hgood : HGGood H) :
    ∃ Hq : Hypergraph (Finset α) κ ν,
      H.quotient τ = Except.ok (H, Hq) ∧ Hq.num_vertices = τ.length := by
  obtain ⟨Hq, h1, h2, _, _⟩ := quotient_spec H τ hne hdisj hcov hgood
  refine ⟨Hq, h1, ?_⟩
  rw [Hypergraph.num_vertices, h2,
    List.toFinset_card_of_nodup (nodup_of_pairwise_disjoint τ hne hdisj)]

/-- Witness for C5 at a concrete hypergraph and partition. -/
theorem quotient_vertex_count_witness :
    (∀ b ∈ [({1, 2} : Finset ℕ), {3}], b ≠ ∅) ∧
    ∃ Hq : Hypergraph (Finset ℕ) ℕ ℕ,
      Hypergraph.quotient ⟨{1, 2, 3}, [{1, 2}, {3}], [[], []], {{1, 2}, {3}}, []⟩
          [{1, 2}, {3}] =
        Except.ok (⟨{1, 2, 3}, [{1, 2}, {3}], [[], []], {{1, 2}, {3}}, []⟩, Hq) ∧
      Hq.num_vertices = 2 :=
  ⟨by decide,
   quotient_vertex_count ⟨{1, 2, 3}, [{1, 2}, {3}], [[], []], {{1, 2}, {3}}, []⟩
     [{1, 2}, {3}] (by decide) (by decide) (by decide) (by decide)⟩

/-- C10: `quotient` leaves its receiver unchanged and returns a fresh
hypergraph with an empty vertex-attribute map and only empty per-edge
attribute dicts, even when the receiver carries attributes. -/
theorem quotient_receiver_and_attrs (H : Hypergraph α κ ν) (τ : List (Finset α))
    (hne : ∀ b ∈ τ, b ≠ ∅) (hdisj : τ.Pairwise (fun s t => Disjoint s t))
    (hcov : τ.foldl (fun a b => a ∪ b) ∅ = H.vertices) (hgood : HGGood H) :
    ∃ Hq : Hypergraph (Finset α) κ ν,
      H.quotient τ = Except.ok (H, Hq) ∧ Hq.vertex_attrs = [] ∧
      ∀ d ∈ Hq.edge_attrs, d = ([] : Dict κ ν) := by
  obtain ⟨Hq, h1, _, h3, h4⟩ := quotient_spec H τ hne hdisj hcov hgood
  exact ⟨Hq, h1, h3, h4⟩

/-- Witness for C10 at a hypergraph carrying both vertex and edge attributes. -/
theorem quotient_receiver_and_attrs_witness :
    (∀ b ∈ [({1, 2} : Finset ℕ), {3}], b ≠ ∅) ∧
    ∃ Hq : Hypergraph (Finset ℕ) ℕ ℕ,
      Hypergraph.quotient
          ⟨{1, 2, 3}, [{1, 2}, {3}], [[(1, 5)], []], {{1, 2}, {3}}, [(2, [(0, 9)])]⟩
          [{1, 2}, {3}] =
        Except.ok
          (⟨{1, 2, 3}, [{1, 2}, {3}], [[(1, 5)], []], {{1, 2}, {3}}, [(2, [(0, 9)])]⟩, Hq) ∧
      Hq.vertex_attrs = [] ∧ ∀ d ∈ Hq.edge_attrs, d = ([] : Dict ℕ ℕ) :=
  ⟨by decide,
   quotient_receiver_and_attrs
     ⟨{1, 2, 3}, [{1, 2}, {3}], [[(1, 5)], []], {{1, 2}, {3}}, [(2, [(0, 9)])]⟩
     [{1, 2}, {3}] (by decide) (by decide) (by decide) (by decide)⟩

/-! ### Invariance of the WL hash under incidence-preserving bijections -/

/-- Sorting is invariant under permutation of the input. -/
theorem sortNat_congr (l₁ l₂ : List ℕ) (h : l₁.Perm l₂) : sortNat l₁ = sortNat l₂ := by
  unfold sortNat
  exact List.eq_of_perm_of_sorted
    (((List.perm_insertionSort _ l₁).trans h).trans (List.perm_insertionSort _ l₂).symm)
    (List.sorted_insertionSort _ l₁) (List.sorted_insertionSort _ l₂)

/-- Reindexing `finRange` along an equivalence is a permutation. -/
theorem map_equiv_finRange_perm {k k2 : ℕ} (e : Fin k ≃ Fin k2) :
    (((List.finRange k).map e)).Perm (List.finRange k2) := by
  rw [List.perm_ext_iff_of_nodup
    (List.Nodup.map e.injective (List.nodup_finRange k)) (List.nodup_finRange k2)]
  intro j
  simp only [List.mem_map, List.mem_finRange, true_and, iff_true]
  exact ⟨e.symm j, Equiv.apply_symm_apply e j⟩

/-- A mapped `finRange` is permuted to another mapped `finRange` along an
equivalence commuting with the mapped functions. -/
theorem map_finRange_perm {k k2 : ℕ} (e : Fin k ≃ Fin k2) (f : Fin k → ℕ)
    (f2 : Fin k2 → ℕ) (hf : ∀ i, f i = f2 (e i)) :
    ((List.finRange k).map f).Perm ((List.finRange k2).map f2) := by
  have h1 : (List.finRange k).map f = ((List.finRange k).map e).map f2 := by
    rw [List.map_map]
    exact List.map_congr_left (fun i _ => hf i)
  rw [h1]
  exact (map_equiv_finRange_perm e).map f2

/-- A filtered-and-mapped `finRange` is permuted to another one along an
equivalence commuting with predicate and mapped function. -/
theorem filter_map_finRange_perm {k k2 : ℕ} (e : Fin k ≃ Fin k2)
    (p : Fin k → Bool) (p2 : Fin k2 → Bool) (f : Fin k → ℕ) (f2 : Fin k2 → ℕ)
    (hp : ∀ i, p i = p2 (e i)) (hf : ∀ i, f i = f2 (e i)) :
    (((List.finRange k).filter p).map f).Perm
      (((List.finRange k2).filter p2).map f2) := by
  have h1 : ((List.finRange k).filter p).map f =
      (((List.finRange k).filter p).map e).map f2 := by
    rw [List.map_map]
    exact List.map_congr_left (fun i _ => hf i)
  have h2 : ((((List.finRange k).filter p).map e)).Perm ((List.finRange k2).filter p2) := by
    rw [List.perm_ext_iff_of_nodup
      (List.Nodup.map e.injective (List.Nodup.filter p (List.nodup_finRange k)))
      (List.Nodup.filter p2 (List.nodup_finRange k2))]
    intro j
    simp only [List.mem_map, List.mem_filter, List.mem_finRange, true_and]
    constructor
    · rintro ⟨i, hpi, rfl⟩
      rw [← hp]
      exact hpi
    · intro hj
      refine ⟨e.symm j, ?_, Equiv.apply_symm_apply e j⟩
      rw [hp (e.symm j), Equiv.apply_symm_apply]
      exact hj
  rw [h1]
  exact h2.map f2

/-- Core WL invariance: class-preserving, incidence-preserving bijections of
the nodes of two mask-encoded incidence graphs identify the iterated WL
labels. -/
theorem wlLabels_iso (n : ℕ) (a b : List ℕ) (σ : Fin n ≃ Fin n)
    (τ : Fin a.length ≃ Fin b.length)
    (hbit : ∀ (i : Fin a.length) (v : Fin n),
      (a.get i).testBit v.val = (b.get (τ i)).testBit (σ v).val) (t : ℕ) :
    (∀ v, (wlLabels a n t).1 v = (wlLabels b n t).1 (σ v)) ∧
    (∀ i, (wlLabels a n t).2 i = (wlLabels b n t).2 (τ i)) := by
  induction t with
  | zero => exact ⟨fun _ => rfl, fun _ => rfl⟩
  | succ t ih =>
      obtain ⟨ihv, ihe⟩ := ih
      constructor
      · intro v
        show Nat.pair ((wlLabels a n t).1 v) _ = Nat.pair ((wlLabels b n t).1 (σ v)) _
        rw [ihv v]
        congr 1
        congr 1
        apply sortNat_congr
        exact filter_map_finRange_perm τ
          (fun i => (a.get i).testBit v.val)
          (fun j => (b.get j).testBit (σ v).val)
          (wlLabels a n t).2 (wlLabels b n t).2
          (fun i => hbit i v) ihe
      · intro i
        show Nat.pair ((wlLabels a n t).2 i) _ = Nat.pair ((wlLabels b n t).2 (τ i)) _
        rw [ihe i]
        congr 1
        congr 1
        apply sortNat_congr
        exact filter_map_finRange_perm σ
          (fun v => (a.get i).testBit v.val)
          (fun w => (b.get (τ i)).testBit w.val)
          (wlLabels a n t).1 (wlLabels b n t).1
          (fun v => hbit i v) ihv

/-- Each per-iteration label multiset of the WL hash is invariant. -/
theorem wlRound_iso (n : ℕ) (a b : List ℕ) (σ : Fin n ≃ Fin n)
    (τ : Fin a.length ≃ Fin b.length)
    (hbit : ∀ (i : Fin a.length) (v : Fin n),
      (a.get i).testBit v.val = (b.get (τ i)).testBit (σ v).val) (t : ℕ) :
    wlRound a n t = wlRound b n t := by
  obtain ⟨hv, he⟩ := wlLabels_iso n a b σ τ hbit t
  unfold wlRound
  apply sortNat_congr
  exact (map_finRange_perm σ _ _ hv).append (map_finRange_perm τ _ _ he)

/-- The WL invariant hash is identical on mask-encodings related by a vertex
bijection and an edge-slot bijection preserving incidence. -/
theorem wl_hash_masks_iso (n : ℕ) (a b : List ℕ) (σ : Fin n ≃ Fin n)
    (τ : Fin a.length ≃ Fin b.length)
    (hbit : ∀ (i : Fin a.length) (v : Fin n),
      (a.get i).testBit v.val = (b.get (τ i)).testBit (σ v).val) :
    wl_hash_masks a n = wl_hash_masks b n := by
  unfold wl_hash_masks
  rw [wlRound_iso n a b σ τ hbit 1, wlRound_iso n a b σ τ hbit 2,
    wlRound_iso n a b σ τ hbit 3]

/-- The exact oracle relation is symmetric (invert both bijections). -/
theorem isomorphic_masks_symm (a : List ℕ) (na : ℕ) (b : List ℕ) (nb : ℕ)
    (h : isomorphic_masks a na b nb) : isomorphic_masks b nb a na := by
  obtain ⟨σ, τ, hsz, hbit⟩ := h
  refine ⟨σ.symm, τ.symm, ?_, ?_⟩
  · intro j
    have := hsz (τ.symm j)
    rw [Equiv.apply_symm_apply] at this
    exact this.symm
  · intro j w
    have := hbit (τ.symm j) (σ.symm w)
    rw [Equiv.apply_symm_apply, Equiv.apply_symm_apply] at this
    exact this.symm

/-- Oracle-isomorphic mask encodings have the same vertex-universe size. -/
theorem isomorphic_masks_n_eq (a : List ℕ) (na : ℕ) (b : List ℕ) (nb : ℕ)
    (h : isomorphic_masks a na b nb) : na = nb := by
  obtain ⟨σ, _, _, _⟩ := h
  exact Fin.equiv_iff_eq.mp ⟨σ⟩

/-- Soundness of the bucketing hash with respect to the exact oracle:
oracle-isomorphic candidates have identical WL hashes. -/
theorem isomorphic_masks_hash_eq (a : List ℕ) (na : ℕ) (b : List ℕ) (nb : ℕ)
    (h : isomorphic_masks a na b nb) :
    wl_hash_masks a na = wl_hash_masks b nb := by
  have hn := isomorphic_masks_n_eq a na b nb h
  subst hn
  obtain ⟨σ, τ, _, hbit⟩ := h
  exact wl_hash_masks_iso na a b σ τ hbit

/-- C3: identical hypergraphs up to vertex relabeling produce identical
invariant hashes.  Two mask encodings over the universe `{1..n}` are
"identical up to relabeling" when a vertex bijection `σ` and an edge-slot
matching `τ` exist under which edge `τ i` of the second is exactly the
`σ`-image of edge `i` of the first (membership of `σ v` in `b`'s edge `τ i`
agrees with membership of `v` in `a`'s edge `i`); then the WL hash of the two
bipartite reductions is the same — a false negative never occurs. -/
theorem wl_hash_no_false_negatives (n : ℕ) (a b : List ℕ) (σ : Fin n ≃ Fin n)
    (τ : Fin a.length ≃ Fin b.length)
    (hrel : ∀ (i : Fin a.length) (v : Fin n),
      (b.get (τ i)).testBit (σ v).val = (a.get i).testBit v.val) :
    wl_hash_masks a n = wl_hash_masks b n :=
  wl_hash_masks_iso n a b σ τ (fun i v => (hrel i v).symm)

/-- Witness for C3: the hypergraph with edges `{1}` and `{2}` on two vertices,
relabeled by the transposition of the two vertices (which swaps the two edge
slots). -/
theorem wl_hash_no_false_negatives_witness :
    (∀ (i v : Fin 2),
      (([2, 1].get ((Equiv.swap (0 : Fin 2) (1 : Fin 2)) i)).testBit ((Equiv.refl (Fin 2)) v).val) =
        (([1, 2].get i).testBit v.val)) ∧
    wl_hash_masks [1, 2] 2 = wl_hash_masks [2, 1] 2 :=
  ⟨by decide,
   wl_hash_no_false_negatives 2 [1, 2] [2, 1] (Equiv.refl (Fin 2))
     (Equiv.swap (0 : Fin 2) (1 : Fin 2)) (by decide)⟩

/-! ### Minimality of the enumeration (C1) -/

/-- The invariant of the enumerator's bucket map: bucket keys are pairwise
distinct, every stored representative hashes to its bucket's key, and within
each bucket same-`n` representatives are pairwise non-isomorphic under the
exact oracle. -/
def BucketsInv (st : Buckets) : Prop :=
  (st.map Prod.fst).Nodup ∧
  (∀ p ∈ st, ∀ r ∈ p.2, wl_hash_masks r.2 r.1 = p.1) ∧
  (∀ p ∈ st, p.2.Pairwise (fun r s => r.1 = s.1 →
    ¬ isomorphic_masks r.2 r.1 s.2 s.1 ∧ ¬ isomorphic_masks s.2 s.1 r.2 r.1))

/-- With pairwise-distinct keys, a key determines its bucket entry. -/
theorem keys_nodup_unique (st : Buckets) (hnd : (st.map Prod.fst).Nodup)
    (p q : List (List ℕ) × List MaskRep) (hp : p ∈ st) (hq : q ∈ st)
    (hpq : p.1 = q.1) : p = q := by
  by_contra hne
  have hpw : st.Pairwise (fun x y => x.1 ≠ y.1) := List.pairwise_map.mp hnd
  have hsymm : Symmetric (fun (x y : List (List ℕ) × List MaskRep) => x.1 ≠ y.1) :=
    fun _ _ h he => h he.symm
  exact hpw.forall hsymm hp hq hne hpq

/-- Processing one candidate preserves the bucket invariant. -/
theorem processCandidate_inv (n : ℕ) (st : Buckets) (masks : List ℕ)
    (h : BucketsInv st) : BucketsInv (processCandidate n st masks) := by
  obtain ⟨h1, h2, h3⟩ := h
  simp only [processCandidate]
  cases hfind : st.find? (fun p => p.1 = wl_hash_masks masks n) with
  | none =>
      have hkeys : ∀ p ∈ st, p.1 ≠ wl_hash_masks masks n := by
        intro p hp
        have := List.find?_eq_none.mp hfind p hp
        simpa using this
      refine ⟨?_, ?_, ?_⟩
      · rw [List.map_append, List.nodup_append]
        refine ⟨h1, by simp, ?_⟩
        intro x hx hxmem
        simp only [List.map_cons, List.map_nil, List.mem_singleton] at hxmem
        obtain ⟨p, hp, rfl⟩ := List.mem_map.mp hx
        exact hkeys p hp hxmem
      · intro p hp r hr
        rcases List.mem_append.mp hp with hp | hp
        · exact h2 p hp r hr
        · rw [List.mem_singleton] at hp
          subst hp
          rw [List.mem_singleton] at hr
          subst hr
          rfl
      · intro p hp
        rcases List.mem_append.mp hp with hp | hp
        · exact h3 p hp
        · rw [List.mem_singleton] at hp
          subst hp
          exact List.pairwise_singleton _ _
  | some p =>
      have hpmem : p ∈ st := List.mem_of_find?_eq_some hfind
      have hpkey : p.1 = wl_hash_masks masks n := by
        have := List.find?_some hfind
        simpa using this
      show BucketsInv (if ∃ r ∈ p.2, r.1 = n ∧ isomorphic_masks masks n r.2 r.1 then st
        else st.map (fun q =>
          if q.1 = wl_hash_masks masks n then (q.1, q.2 ++ [(n, masks)]) else q))
      by_cases hiso : ∃ r ∈ p.2, r.1 = n ∧ isomorphic_masks masks n r.2 r.1
      · rw [if_pos hiso]
        exact ⟨h1, h2, h3⟩
      · rw [if_neg hiso]
        push_neg at hiso
        refine ⟨?_, ?_, ?_⟩
        · have hsame : (st.map (fun q =>
              if q.1 = wl_hash_masks masks n then (q.1, q.2 ++ [(n, masks)]) else q)).map
                Prod.fst = st.map Prod.fst := by
            rw [List.map_map]
            apply List.map_congr_left
            intro q _
            by_cases hq1 : q.1 = wl_hash_masks masks n
            · simp [hq1]
            · simp [hq1]
          rw [hsame]
          exact h1
        · intro q2 hq2 r hr
          obtain ⟨q, hq, hqe⟩ := List.mem_map.mp hq2
          by_cases hq1 : q.1 = wl_hash_masks masks n
          · rw [if_pos hq1] at hqe
            subst hqe
            rcases List.mem_append.mp hr with hr | hr
            · exact h2 q hq r hr
            · rw [List.mem_singleton] at hr
              subst hr
              exact hq1.symm
          · rw [if_neg hq1] at hqe
            subst hqe
            exact h2 q hq r hr
        · intro q2 hq2
          obtain ⟨q, hq, hqe⟩ := List.mem_map.mp hq2
          by_cases hq1 : q.1 = wl_hash_masks masks n
          · rw [if_pos hq1] at hqe
            subst hqe
            have hqp : q = p := keys_nodup_unique st h1 q p hq hpmem (by rw [hq1, hpkey])
            rw [List.pairwise_append]
            refine ⟨h3 q hq, List.pairwise_singleton _ _, ?_⟩
            intro r hr c hc
            rw [List.mem_singleton] at hc
            subst hc
            intro hr1
            have hni : ¬ isomorphic_masks masks n r.2 r.1 := by
              apply hiso r
              · rw [← hqp]
                exact hr
              · exact hr1
            exact ⟨fun hc2 => hni (isomorphic_masks_symm _ _ _ _ hc2), hni⟩
          · rw [if_neg hq1] at hqe
            subst hqe
            exact h3 q hq

/-- The candidate loop at one universe size preserves the bucket invariant. -/
theorem buckets_fold_inner (n : ℕ) (l : List (List ℕ)) :
    ∀ st : Buckets, BucketsInv st → BucketsInv (l.foldl (processCandidate n) st) := by
  induction l with
  | nil => exact fun _ h => h
  | cons c l ih =>
      intro st h
      simp only [List.foldl_cons]
      exact ih (processCandidate n st c) (processCandidate_inv n st c h)

/-- The whole per-`n` loop preserves the bucket invariant. -/
theorem buckets_fold_outer (k alpha : ℕ) (rni : Bool) (ns : List ℕ) :
    ∀ st : Buckets, BucketsInv st →
      BucketsInv (ns.foldl
        (fun st n => (candidates_for k alpha n rni).foldl (processCandidate n) st) st) := by
  induction ns with
  | nil => exact fun _ h => h
  | cons n ns ih =>
      intro st h
      simp only [List.foldl_cons]
      exact ih _ (buckets_fold_inner n (candidates_for k alpha n rni) st h)

/-- Flattening an invariant-abiding bucket map yields a representative list in
which any two same-`n` entries are non-isomorphic (both ways) under the exact
oracle: entries of one bucket were checked pairwise, entries of different
buckets have different hashes, and isomorphic candidates always hash alike. -/
theorem buckets_flatten_pairwise (st : Buckets) (h : BucketsInv st) :
    (st.flatMap (fun p => p.2)).Pairwise (fun r s => r.1 = s.1 →
      ¬ isomorphic_masks r.2 r.1 s.2 s.1 ∧ ¬ isomorphic_masks s.2 s.1 r.2 r.1) := by
  obtain ⟨h1, h2, h3⟩ := h
  rw [List.flatMap_def, List.pairwise_flatten]
  constructor
  · intro l hl
    obtain ⟨p, hp, rfl⟩ := List.mem_map.mp hl
    exact h3 p hp
  · rw [List.pairwise_map]
    have hkeys : st.Pairwise (fun x y => x.1 ≠ y.1) := List.pairwise_map.mp h1
    refine hkeys.imp_of_mem ?_
    intro p q hp hq hne r hr s hs heq
    constructor
    · intro hc
      apply hne
      rw [← h2 p hp r hr, ← h2 q hq s hs]
      exact isomorphic_masks_hash_eq r.2 r.1 s.2 s.1 hc
    · intro hc
      apply hne
      rw [← h2 p hp r hr, ← h2 q hq s hs]
      exact (isomorphic_masks_hash_eq s.2 s.1 r.2 r.1 hc).symm

/-- The flattened representative list of the enumeration core is pairwise
non-isomorphic on same-`n` entries. -/
theorem generateRepsCore_pairwise (k alpha mv : ℕ) (rni : Bool) :
    (generateRepsCore k alpha mv rni).Pairwise (fun r s => r.1 = s.1 →
      ¬ isomorphic_masks r.2 r.1 s.2 s.1 ∧ ¬ isomorphic_masks s.2 s.1 r.2 r.1) := by
  unfold generateRepsCore
  apply buckets_flatten_pairwise
  exact buckets_fold_outer k alpha rni (List.range' 1 mv) []
    ⟨List.nodup_nil, by simp, by simp⟩

/-- C1: for every argument combination on which the enumeration succeeds, the
returned representative list contains no two oracle-isomorphic entries:
representatives with the same vertex-universe size `n` are pairwise
non-isomorphic under the exact oracle (in both orientations), and
representatives with different `n` are never compared — the implementation
treats them as automatically non-isomorphic by design. -/
theorem generate_minimality (k alpha : Int) (mv : Option Int) (rni : Bool)
    (reps : List MaskRep) (h : generateReps k alpha mv rni = Except.ok reps) :
    reps.Pairwise (fun r s => r.1 = s.1 →
      ¬ isomorphic_masks r.2 r.1 s.2 s.1 ∧ ¬ isomorphic_masks s.2 s.1 r.2 r.1) := by
  unfold generateReps at h
  by_cases hk : k ≤ 0
  · rw [if_pos hk] at h
    cases h
  · rw [if_neg hk] at h
    by_cases ha : alpha ≤ 0
    · rw [if_pos ha] at h
      cases h
    · rw [if_neg ha] at h
      by_cases hm : mv.getD (k * alpha) ≤ 0
      · rw [if_pos hm] at h
        cases h
        exact List.Pairwise.nil
      · rw [if_neg hm] at h
        cases h
        exact generateRepsCore_pairwise k.toNat alpha.toNat
          (mv.getD (k * alpha)).toNat rni

/-- Witness for C1 at the concrete call `generate(2, 1, 2, True)`. -/
theorem generate_minimality_witness :
    generateReps 2 1 (some 2) true = Except.ok [(2, [1, 2])] ∧
    ([(2, [1, 2])] : List MaskRep).Pairwise (fun r s => r.1 = s.1 →
      ¬ isomorphic_masks r.2 r.1 s.2 s.1 ∧ ¬ isomorphic_masks s.2 s.1 r.2 r.1) :=
  ⟨by decide, generate_minimality 2 1 (some 2) true [(2, [1, 2])] (by decide)⟩
